import Mathlib

/-!
Verification of the FocusLog task-tree engine (src/types.ts, src/utils.ts,
src/App.tsx, src/unnamed/part_001) against its specification.

Modelling conventions:
* A task node (`Node`) covers both `Task` and `Subtask` from src/types.ts;
  the optional `parentId` is `none` for root tasks.
* The current wall-clock timestamp (`new Date().toISOString()`) is passed
  explicitly as a `now : String` argument to every operation that stamps it.
* JS `undefined`-able fields become `Option`; a `Partial<Subtask>` updates
  object becomes a record of `Option` fields (`none` = key absent).
* `localeCompare` is modelled as codepoint-lexicographic comparison with a
  case-insensitive primary pass where the source compares tag names; on the
  ISO-8601 timestamp strings compared by the sort comparator the two agree.
-/

/-- Task node, from src/types.ts (`Task` / `Subtask`). -/
inductive Node : Type where
  | mk : (id : String) → (parentId : Option String) → (title : String) →
      (description : Option String) → (tags : List String) →
      (completedAt : Option String) → (isCompleted : Bool) →
      (createdAt : String) → (updatedAt : String) →
      (subtasks : List Node) → Node

def Node.id : Node → String
  | .mk i _ _ _ _ _ _ _ _ _ => i

def Node.parentId : Node → Option String
  | .mk _ p _ _ _ _ _ _ _ _ => p

def Node.title : Node → String
  | .mk _ _ t _ _ _ _ _ _ _ => t

def Node.description : Node → Option String
  | .mk _ _ _ d _ _ _ _ _ _ => d

def Node.tags : Node → List String
  | .mk _ _ _ _ tg _ _ _ _ _ => tg

def Node.completedAt : Node → Option String
  | .mk _ _ _ _ _ ca _ _ _ _ => ca

def Node.isCompleted : Node → Bool
  | .mk _ _ _ _ _ _ ic _ _ _ => ic

def Node.createdAt : Node → String
  | .mk _ _ _ _ _ _ _ cr _ _ => cr

def Node.updatedAt : Node → String
  | .mk _ _ _ _ _ _ _ _ ua _ => ua

def Node.subtasks : Node → List Node
  | .mk _ _ _ _ _ _ _ _ _ s => s

/-- All fields of a node except `subtasks`, bundled for frame statements. -/
def Node.scalars : Node →
    String × Option String × String × Option String × List String ×
    Option String × Bool × String × String
  | .mk i p t d tg ca ic cr ua _ => (i, p, t, d, tg, ca, ic, cr, ua)

mutual

/-- Function `toggleInTree` from src/utils.ts lines 30-46: locate `tid` anywhere in the
tree, flip `isCompleted`, set `completedAt` to `now` when newly completed and
clear it otherwise, refresh `updatedAt`; recurse into non-empty subtask lists
of non-matching nodes. -/
def toggleInTree (now tid : String) : List Node → List Node
  | [] => []
  | item :: rest => toggleItem now tid item :: toggleInTree now tid rest

/-- The per-item body of `toggleInTree`'s `items.map`. -/
def toggleItem (now tid : String) : Node → Node
  | .mk i p t d tg ca ic cr ua subs =>
    if i = tid then
      .mk i p t d tg (if !ic then some now else none) (!ic) cr now subs
    else if subs.length > 0 then
      .mk i p t d tg ca ic cr ua (toggleInTree now tid subs)
    else
      .mk i p t d tg ca ic cr ua subs

end

/-- A `Partial<Subtask>` updates object (src/utils.ts `updateInTree`), with
`none` meaning the key is absent.  Per spec section 4.3 the caller never sets
`id`, `parentId`, `createdAt` or `subtasks` through it, and `updatedAt` is
overwritten by the merge anyway, so those keys are not modelled. -/
structure Updates where
  title : Option String := none
  description : Option (Option String) := none
  tags : Option (List String) := none
  isCompleted : Option Bool := none
  completedAt : Option (Option String) := none

mutual

/-- Function `updateInTree` from src/utils.ts lines 48-58: on the matching node merge
the updates object over the node's fields (`{...item, ...updates}`) and
refresh `updatedAt`; recurse into non-empty subtask lists otherwise. -/
def updateInTree (now tid : String) (u : Updates) : List Node → List Node
  | [] => []
  | item :: rest => updateItem now tid u item :: updateInTree now tid u rest

/-- The per-item body of `updateInTree`'s `items.map`. -/
def updateItem (now tid : String) (u : Updates) : Node → Node
  | .mk i p t d tg ca ic cr ua subs =>
    if i = tid then
      .mk i p (u.title.getD t) (u.description.getD d) (u.tags.getD tg)
        (u.completedAt.getD ca) (u.isCompleted.getD ic) cr now subs
    else if subs.length > 0 then
      .mk i p t d tg ca ic cr ua (updateInTree now tid u subs)
    else
      .mk i p t d tg ca ic cr ua subs

end

mutual

/-- Function `deleteFromTree` from src/utils.ts lines 60-69: drop every node whose id
matches (the source's `filter`), then recurse into survivors' non-empty
subtask lists (the source's `map`); here the filter and map passes are fused
into one list recursion with identical result. -/
def deleteFromTree (tid : String) : List Node → List Node
  | [] => []
  | item :: rest =>
    if item.id = tid then deleteFromTree tid rest
    else deleteItem tid item :: deleteFromTree tid rest

/-- The per-survivor body of `deleteFromTree`'s `map`. -/
def deleteItem (tid : String) : Node → Node
  | .mk i p t d tg ca ic cr ua subs =>
    if subs.length > 0 then
      .mk i p t d tg ca ic cr ua (deleteFromTree tid subs)
    else
      .mk i p t d tg ca ic cr ua subs

end

mutual

/-- Function `addToTree` from src/utils.ts lines 71-82: append `newN` to the subtasks
of the node whose id is `pid`; recurse into non-empty subtask lists of other
nodes. -/
def addToTree (pid : String) (newN : Node) : List Node → List Node
  | [] => []
  | item :: rest => addItem pid newN item :: addToTree pid newN rest

/-- The per-item body of `addToTree`'s `items.map`. -/
def addItem (pid : String) (newN : Node) : Node → Node
  | .mk i p t d tg ca ic cr ua subs =>
    if i = pid then
      .mk i p t d tg ca ic cr ua (subs ++ [newN])
    else if subs.length > 0 then
      .mk i p t d tg ca ic cr ua (addToTree pid newN subs)
    else
      .mk i p t d tg ca ic cr ua subs

end

/-- The fresh subtask record built by `handleAddSubtask`
(src/unnamed/part_001): incomplete, no description, no completion timestamp,
empty subtask list, both timestamps set to creation time. -/
def freshSubtask (nid pid title : String) (tags : List String)
    (now : String) : Node :=
  .mk nid (some pid) title none tags none false now now []

/-- Function `toggleSubtask` from src/App.tsx lines 121-135: the one-level variant that
flips a direct subtask's completion.  Note: unlike `toggleInTree` (and unlike
`toggleTask`/`updateSubtask` in the same file) it does not touch `updatedAt`. -/
def toggleSubtask (now tid sid : String) (tasks : List Node) : List Node :=
  tasks.map fun task =>
    match task with
    | .mk i p t d tg ca ic cr ua subs =>
      if i ≠ tid then .mk i p t d tg ca ic cr ua subs
      else
        .mk i p t d tg ca ic cr ua (subs.map fun st =>
          match st with
          | .mk si sp st' sd stg sca sic scr sua ssubs =>
            if si ≠ sid then .mk si sp st' sd stg sca sic scr sua ssubs
            else
              .mk si sp st' sd stg (if !sic then some now else none) (!sic)
                scr sua ssubs)

mutual

/-- Whether `tid` occurs as the id of some node of the tree, at any depth. -/
def occursNode (tid : String) : Node → Bool
  | .mk i _ _ _ _ _ _ _ _ subs => i = tid || occursList tid subs

def occursList (tid : String) : List Node → Bool
  | [] => false
  | n :: rest => occursNode tid n || occursList tid rest

end

/-- A character matched by the regex class `[\w-]` of src/utils.ts line 11
(`\w` is ASCII word characters). -/
def isTagChar (c : Char) : Bool :=
  c.isAlphanum || c = '_' || c = '-'

/-- The successive matches of the global regex `/#[\w-]+/g` over the input,
each including its leading `#`, exactly as `input.match(tagRegex)` produces
them: scan left to right; at a `#` that is directly followed by at least one
`[\w-]` character, the match is the `#` plus the maximal (greedy) run of
`[\w-]` characters, and scanning resumes after it. -/
def tagMatches : List Char → List (List Char)
  | [] => []
  | c :: rest =>
    if c = '#' && (rest.head?.map isTagChar).getD false then
      ('#' :: rest.takeWhile isTagChar) :: tagMatches (rest.dropWhile isTagChar)
    else
      tagMatches rest
termination_by l => l.length
decreasing_by
  · simp only [List.length_cons]
    exact Nat.lt_succ_of_le (List.dropWhile_sublist _).length_le
  · simp

/-- Model of `input.replace(tagRegex, '')` from src/utils.ts line 13: the input with
every regex match removed. -/
def stripTags : List Char → List Char
  | [] => []
  | c :: rest =>
    if c = '#' && (rest.head?.map isTagChar).getD false then
      stripTags (rest.dropWhile isTagChar)
    else
      c :: stripTags rest
termination_by l => l.length
decreasing_by
  · simp only [List.length_cons]
    exact Nat.lt_succ_of_le (List.dropWhile_sublist _).length_le
  · simp

/-- JS `String.prototype.trim`: strip leading and trailing whitespace. -/
def trimChars (l : List Char) : List Char :=
  ((l.dropWhile Char.isWhitespace).reverse.dropWhile Char.isWhitespace).reverse

/-- Function `parseTaskInput` from src/utils.ts lines 10-16: tags are the regex
matches with the leading `#` stripped (`tag.substring(1)`); the title is the
input with the matches removed and then trimmed, falling back to the raw
input when that is empty (`title || input`). -/
def parseTaskInput (input : String) : String × List String :=
  let l := input.toList
  let tags := (tagMatches l).map (fun m => String.mk (m.drop 1))
  let title := String.mk (trimChars (stripTags l))
  (if title = "" then input else title, tags)

/-- Spec section 4.2, stated as one combined left-to-right scan: walking the
input once, a `#` directly followed by one or more word-characters or hyphens
yields that tag body (the `#` already stripped) and contributes nothing to
the title; every other character stays in the title. -/
def specScan : List Char → List Char × List (List Char)
  | [] => ([], [])
  | c :: rest =>
    if c = '#' && (rest.head?.map isTagChar).getD false then
      ((specScan (rest.dropWhile isTagChar)).1,
        rest.takeWhile isTagChar :: (specScan (rest.dropWhile isTagChar)).2)
    else
      (c :: (specScan rest).1, (specScan rest).2)
termination_by l => l.length
decreasing_by
  · simp only [List.length_cons]
    exact Nat.lt_succ_of_le (List.dropWhile_sublist _).length_le
  · simp

/-- The parser contract as the spec words it: tags are the scanned tag
bodies in order of appearance, duplicates kept; the title is the remaining
text trimmed, except that a stripped-and-trimmed-empty result falls back to
the original untrimmed raw input. -/
def parseTaskInputSpec (input : String) : String × List String :=
  let r := specScan input.toList
  let stripped := String.mk (trimChars r.1)
  (if stripped = "" then input else stripped, r.2.map String.mk)

mutual

/-- Function `hasTagRecursive` from src/unnamed/part_001 lines 878-885: the node's own
tags contain some selected tag, or some subtask recursively does. -/
def hasTagRecursive (selected : List String) : Node → Bool
  | .mk _ _ _ _ tg _ _ _ _ subs =>
    selected.any (fun tag => tg.contains tag) || hasTagAny selected subs

/-- Model of `item.subtasks.some(st => hasTagRecursive(st))`. -/
def hasTagAny (selected : List String) : List Node → Bool
  | [] => false
  | n :: rest => hasTagRecursive selected n || hasTagAny selected rest

end

/-- The tag criterion of `filteredTasks` in src/App.tsx lines 238-242: the
selected tags are tested against the union of the root task's tags and the
tags of its direct subtasks only (`task.subtasks.flatMap(s => s.tags)`). -/
def appHasTag (selected : List String) (task : Node) : Bool :=
  let taskTags := task.tags ++ (task.subtasks.map Node.tags).flatten
  selected.any (fun tag => taskTags.contains tag)

mutual

/-- All tags carried by a node or any of its descendants, at any depth
(the spec's notion of a tag appearing somewhere in the subtree). -/
def subtreeTags : Node → List String
  | .mk _ _ _ _ tg _ _ _ _ subs => tg ++ subtreeTagsList subs

def subtreeTagsList : List Node → List String
  | [] => []
  | n :: rest => subtreeTags n ++ subtreeTagsList rest

end

/-- A node of the persisted JSON structure, whose `subtasks` key may be
missing (`none`). -/
inductive RawNode : Type where
  | mk : (id : String) → (parentId : Option String) → (title : String) →
      (description : Option String) → (tags : List String) →
      (completedAt : Option String) → (isCompleted : Bool) →
      (createdAt : String) → (updatedAt : String) →
      (subtasks : Option (List RawNode)) → RawNode

def RawNode.subtasks : RawNode → Option (List RawNode)
  | .mk _ _ _ _ _ _ _ _ _ s => s

mutual

/-- The `sanitize` closure of the src/unnamed/part_001 `useState` initializer
(lines 686-692): `{...item, subtasks: item.subtasks ? sanitize(item.subtasks)
: []}`, applied recursively. -/
def sanitizeList : List RawNode → List Node
  | [] => []
  | item :: rest => sanitizeItem item :: sanitizeList rest

def sanitizeItem : RawNode → Node
  | .mk i p t d tg ca ic cr ua subs? =>
    .mk i p t d tg ca ic cr ua
      (match subs? with
       | some subs => sanitizeList subs
       | none => [])

end

/-- The result of `JSON.parse` on the persisted blob: either a parse failure
(the thrown exception) or the parsed structure. -/
abbrev ParsedBlob := Except Unit (List RawNode)

/-- The src/unnamed/part_001 `useState` initializer (lines 680-699): `none`
models `localStorage.getItem` returning null; a parse failure is caught and
replaced by the empty list; a parsed structure is sanitized recursively. -/
def part001Load : Option ParsedBlob → List Node
  | none => []
  | some (.error _) => []
  | some (.ok raws) => sanitizeList raws

/-- The src/App.tsx `useState` initializer (lines 12-15):
`saved ? JSON.parse(saved) : []` — no catch (a parse failure propagates) and
no sanitization (the parsed structure is used as is). -/
def appLoad : Option ParsedBlob → Except Unit (List RawNode)
  | none => .ok []
  | some r => r

/-- Lexicographic (codepoint) strict comparison of character sequences, the
order underlying the model of `localeCompare`. -/
def ltCharList : List Char → List Char → Bool
  | _, [] => false
  | [], _ :: _ => true
  | a :: as, b :: bs =>
    if a < b then true else if b < a then false else ltCharList as bs

/-- Comparison `a.localeCompare(b)` modelled for ISO-8601 timestamp strings:
codepoint-lexicographic three-way comparison. -/
def strCmp (a b : String) : Int :=
  if ltCharList a.data b.data then -1
  else if ltCharList b.data a.data then 1
  else 0

/-- The comparator of `sortedTasks`, src/App.tsx lines 248-257 (identical in
src/unnamed/part_001 lines 891-900). -/
def sortComparator (a b : Node) : Int :=
  if a.isCompleted && !b.isCompleted then 1
  else if !a.isCompleted && b.isCompleted then -1
  else if a.isCompleted && b.isCompleted then
    strCmp (b.completedAt.getD "") (a.completedAt.getD "")
  else
    strCmp b.createdAt a.createdAt

/-- The sort contract as the spec words it, by case analysis on completion:
an incomplete task sorts before a completed one; two completed tasks sort in
descending order of `completedAt`, a missing `completedAt` treated as the
empty string (earliest, hence last among completed); two incomplete tasks
sort in descending order of `createdAt`. -/
def sortComparatorSpec (a b : Node) : Int :=
  match a.isCompleted, b.isCompleted with
  | false, true => -1
  | true, false => 1
  | true, true => strCmp (b.completedAt.getD "") (a.completedAt.getD "")
  | false, false => strCmp b.createdAt a.createdAt

/-- Model of `val.lastIndexOf(' ', fromIdx)` from src/App.tsx line 150: the
greatest index `i ≤ fromIdx` with `val[i] = ' '`, if any (JS clamps a
negative `fromIdx` to 0, which the caller's `cursor - 1` realises through
truncated natural subtraction). -/
def lastSpaceLE (val : List Char) : Nat → Option Nat
  | 0 => if val.get? 0 = some ' ' then some 0 else none
  | i + 1 => if val.get? (i + 1) = some ' ' then some (i + 1) else lastSpaceLE val i

/-- Model of src/App.tsx line 151: `lastSpaceIndex === -1 ? 0 :
lastSpaceIndex + 1`. -/
def startOfWord (val : List Char) (cursor : Nat) : Nat :=
  match lastSpaceLE val (cursor - 1) with
  | none => 0
  | some i => i + 1

/-- Model of JS `String.prototype.substring`, which swaps its arguments when
`a > b` and clamps them to the string length. -/
def jsSubstring (l : List Char) (a b : Nat) : List Char :=
  if a ≤ b then (l.take b).drop a else (l.take a).drop b

/-- The `currentWord` of src/App.tsx line 152: `val.substring(start, cursor)`. -/
def currentWordJS (val : List Char) (cursor : Nat) : List Char :=
  jsSubstring val (startOfWord val cursor) cursor

/-- Model of `s.toLowerCase()` (ASCII, like the regex word class in play). -/
def lowerStr (s : String) : String :=
  String.mk (s.data.map Char.toLower)

/-- Model of `hay.includes(needle)` on JS strings: `needle` occurs as a
contiguous substring of `hay`. -/
def containsSub (hay needle : List Char) : Bool :=
  (List.range (hay.length + 1)).any (fun i => needle.isPrefixOf (hay.drop i))

/-- Comparison `a.localeCompare(b)` modelled for tag names: case-insensitive
primary comparison, codepoint tiebreak (the shape of the default locale
collation on ASCII tag names). -/
def localeCmp (a b : String) : Int :=
  if ltCharList (lowerStr a).data (lowerStr b).data then -1
  else if ltCharList (lowerStr b).data (lowerStr a).data then 1
  else strCmp a b

/-- The suggestion comparator of src/App.tsx lines 157-163: tags whose
lowercase form starts with the search term sort first, then `localeCompare`. -/
def tagCmp (search : List Char) (a b : String) : Int :=
  let aStarts := search.isPrefixOf (lowerStr a).data
  let bStarts := search.isPrefixOf (lowerStr b).data
  if aStarts && !bStarts then -1
  else if !aStarts && bStarts then 1
  else localeCmp a b

/-- The non-strict order induced by `tagCmp`, used to run the sort. -/
def tagLE (search : List Char) (a b : String) : Prop :=
  tagCmp search a b ≤ 0

instance (search : List Char) : DecidableRel (tagLE search) :=
  fun _ _ => Int.decLe _ _

/-- The non-strict order induced by `localeCmp` (alphabetical,
case-insensitive, with a codepoint tiebreak). -/
def alphaLE (a b : String) : Prop :=
  localeCmp a b ≤ 0

instance : DecidableRel alphaLE :=
  fun _ _ => Int.decLe _ _

/-- The suggestion computation of `handleInputChange`, src/App.tsx lines
145-174: take the current word delimited by the nearest space before the
cursor; if it starts with `#` and has something after the `#`, lowercase the
rest, keep the known tags containing it (case-insensitively), sort them with
the starts-with-first comparator and keep the first five; otherwise no
suggestions.  The source's `Array.prototype.sort` is modelled by insertion
sort: the comparator induces a total antisymmetric order, so every correct
sort produces the same list. -/
def suggestTags (val : List Char) (cursor : Nat) (knownTags : List String) :
    List String :=
  let w := currentWordJS val cursor
  if w.head? = some '#' && w.length > 1 then
    let search := (w.drop 1).map Char.toLower
    let ms := knownTags.filter (fun t => containsSub (lowerStr t).data search)
    if ms.length > 0 then
      (List.insertionSort (tagLE search) ms).take 5
    else []
  else []

/-- The start of the current word as the spec words it: just after the
nearest space preceding the cursor, or the start of the string. -/
def specStart (val : List Char) (cursor : Nat) : Nat :=
  match ((List.range cursor).filter (fun i => val.get? i = some ' ')).getLast? with
  | none => 0
  | some i => i + 1

/-- The current word as the spec words it: from `specStart` up to the cursor. -/
def specWord (val : List Char) (cursor : Nat) : List Char :=
  (val.take cursor).drop (specStart val cursor)

/-- The autocomplete contract as the spec words it (spec section 4.6): when
the current word is `#` plus a non-empty body, the suggestions are the known
tags containing the lowercased body as a case-insensitive substring, the
starts-with matches first in alphabetical order, then the mere-contains
matches in alphabetical order, truncated to the first five; otherwise the
suggestion sequence is empty. -/
def suggestSpec (val : List Char) (cursor : Nat) (knownTags : List String) :
    List String :=
  let w := specWord val cursor
  if w.head? = some '#' && w.length > 1 then
    let search := (w.drop 1).map Char.toLower
    let isMatch := fun t => containsSub (lowerStr t).data search
    let starts := fun t => search.isPrefixOf (lowerStr t).data
    ((List.insertionSort alphaLE (knownTags.filter (fun t => isMatch t && starts t))) ++
      (List.insertionSort alphaLE (knownTags.filter (fun t => isMatch t && !starts t)))).take 5
  else []

mutual

/-- The data-model invariant of spec section 3: `completedAt` is defined iff
`isCompleted` is true, at this node and all its descendants. -/
def invNode : Node → Bool
  | .mk _ _ _ _ _ ca ic _ _ subs => (ca.isSome == ic) && invList subs

def invList : List Node → Bool
  | [] => true
  | n :: rest => invNode n && invList rest

end

/-- Frame relation for the length-preserving operations (toggle, update):
the output list is pointwise parallel to the input, every node whose id is
not the target keeps all its non-subtask fields and relates recursively on
subtasks, and a targeted node keeps its subtask list untouched. -/
def FrameSameL (tid : String) : List Node → List Node → Prop
  | [], out => out = []
  | (.mk i p t d tg ca ic cr ua subs) :: as, out =>
    ∃ b bs, out = b :: bs ∧
      (i ≠ tid → (i, p, t, d, tg, ca, ic, cr, ua) = b.scalars ∧
        FrameSameL tid subs b.subtasks) ∧
      (i = tid → b.subtasks = subs) ∧
      FrameSameL tid as bs

/-- Frame relation for deletion: targeted entries are removed with their
whole subtrees, the surviving entries keep their relative order and all
their non-subtask fields, and relate recursively on subtasks. -/
def FrameDelL (tid : String) : List Node → List Node → Prop
  | [], out => out = []
  | (.mk i p t d tg ca ic cr ua subs) :: as, out =>
    if i = tid then FrameDelL tid as out
    else
      ∃ b bs, out = b :: bs ∧ (i, p, t, d, tg, ca, ic, cr, ua) = b.scalars ∧
        FrameDelL tid subs b.subtasks ∧ FrameDelL tid as bs

/-- Frame relation for insertion: every node keeps its non-subtask fields
and relative position; a node matching the parent id gets `newN` appended at
the end of its subtasks, every other node relates recursively on subtasks. -/
def FrameAddL (pid : String) (newN : Node) : List Node → List Node → Prop
  | [], out => out = []
  | (.mk i p t d tg ca ic cr ua subs) :: as, out =>
    ∃ b bs, out = b :: bs ∧ (i, p, t, d, tg, ca, ic, cr, ua) = b.scalars ∧
      (i = pid → b.subtasks = subs ++ [newN]) ∧
      (i ≠ pid → FrameAddL pid newN subs b.subtasks) ∧
      FrameAddL pid newN as bs

/-- Sanitization relation, as spec section 6 words it: the output tree is
the input structure with every node's fields kept and every missing
`subtasks` field coerced to the empty sequence, recursively at every depth. -/
def SanRelL : List RawNode → List Node → Prop
  | [], out => out = []
  | (.mk i p t d tg ca ic cr ua none) :: as, out =>
    ∃ b bs, out = b :: bs ∧ (i, p, t, d, tg, ca, ic, cr, ua) = b.scalars ∧
      b.subtasks = [] ∧ SanRelL as bs
  | (.mk i p t d tg ca ic cr ua (some l)) :: as, out =>
    ∃ b bs, out = b :: bs ∧ (i, p, t, d, tg, ca, ic, cr, ua) = b.scalars ∧
      SanRelL l b.subtasks ∧ SanRelL as bs

/-- A fixed ISO-8601 timestamp used by concrete examples. -/
def ts0 : String := "2024-01-01T00:00:00.000Z"

/-- A later fixed ISO-8601 timestamp used by concrete examples. -/
def nowTs : String := "2024-06-01T12:00:00.000Z"

/-- Concrete depth-two subtask carrying the tag `work`. -/
def exLeafC : Node := .mk "c" (some "b") "Deep subtask" none ["work"] none false ts0 ts0 []

/-- Concrete depth-one subtask containing `exLeafC`. -/
def exMidB : Node := .mk "b" (some "a") "Mid subtask" none [] none false ts0 ts0 [exLeafC]

/-- Concrete root task whose only `work` tag sits two levels down. -/
def exRootA : Node := .mk "a" none "Root task" none [] none false ts0 ts0 [exMidB]

/-- Concrete subtask of `exTaskT1`. -/
def exSubS1 : Node := .mk "s1" (some "t1") "Subtask one" none [] none false ts0 ts0 []

/-- Concrete root task with one direct subtask. -/
def exTaskT1 : Node := .mk "t1" none "Task one" none [] none false ts0 ts0 [exSubS1]

/-- Concrete persisted node whose `subtasks` key is missing. -/
def rawLeaf : RawNode := .mk "rc" (some "rb") "Raw leaf" none [] none false ts0 ts0 none

/-- Concrete persisted root whose child is missing its `subtasks` key. -/
def rawRoot : RawNode := .mk "rb" none "Raw root" none [] none false ts0 ts0 (some [rawLeaf])

mutual

theorem toggleItem_noop (now tid : String) (n : Node)
    (h : occursNode tid n = false) : toggleItem now tid n = n := by
  cases n with
  | mk i p t d tg ca ic cr ua subs =>
    simp only [occursNode, Bool.or_eq_false_iff, decide_eq_false_iff_not] at h
    rw [toggleItem]
    rw [if_neg h.1, toggleInTree_noop now tid subs h.2]
    split <;> rfl

theorem toggleInTree_noop (now tid : String) (l : List Node)
    (h : occursList tid l = false) : toggleInTree now tid l = l := by
  cases l with
  | nil => rfl
  | cons n rest =>
    simp only [occursList, Bool.or_eq_false_iff] at h
    rw [toggleInTree, toggleItem_noop now tid n h.1, toggleInTree_noop now tid rest h.2]

end

mutual

theorem updateItem_noop (now tid : String) (u : Updates) (n : Node)
    (h : occursNode tid n = false) : updateItem now tid u n = n := by
  cases n with
  | mk i p t d tg ca ic cr ua subs =>
    simp only [occursNode, Bool.or_eq_false_iff, decide_eq_false_iff_not] at h
    rw [updateItem]
    rw [if_neg h.1, updateInTree_noop now tid u subs h.2]
    split <;> rfl

theorem updateInTree_noop (now tid : String) (u : Updates) (l : List Node)
    (h : occursList tid l = false) : updateInTree now tid u l = l := by
  cases l with
  | nil => rfl
  | cons n rest =>
    simp only [occursList, Bool.or_eq_false_iff] at h
    rw [updateInTree, updateItem_noop now tid u n h.1,
      updateInTree_noop now tid u rest h.2]

end

mutual

theorem deleteItem_noop (tid : String) (n : Node)
    (h : occursNode tid n = false) : deleteItem tid n = n := by
  cases n with
  | mk i p t d tg ca ic cr ua subs =>
    simp only [occursNode, Bool.or_eq_false_iff, decide_eq_false_iff_not] at h
    rw [deleteItem]
    rw [deleteFromTree_noop tid subs h.2]
    split <;> rfl

theorem deleteFromTree_noop (tid : String) (l : List Node)
    (h : occursList tid l = false) : deleteFromTree tid l = l := by
  cases l with
  | nil => rfl
  | cons n rest =>
    simp only [occursList, Bool.or_eq_false_iff] at h
    have hid : n.id ≠ tid := by
      cases n with
      | mk i p t d tg ca ic cr ua subs =>
        simp only [occursNode, Bool.or_eq_false_iff, decide_eq_false_iff_not] at h
        exact h.1.1
    rw [deleteFromTree, if_neg hid, deleteItem_noop tid n h.1,
      deleteFromTree_noop tid rest h.2]

end

mutual

theorem addItem_noop (pid : String) (newN : Node) (n : Node)
    (h : occursNode pid n = false) : addItem pid newN n = n := by
  cases n with
  | mk i p t d tg ca ic cr ua subs =>
    simp only [occursNode, Bool.or_eq_false_iff, decide_eq_false_iff_not] at h
    rw [addItem]
    rw [if_neg h.1, addToTree_noop pid newN subs h.2]
    split <;> rfl

theorem addToTree_noop (pid : String) (newN : Node) (l : List Node)
    (h : occursList pid l = false) : addToTree pid newN l = l := by
  cases l with
  | nil => rfl
  | cons n rest =>
    simp only [occursList, Bool.or_eq_false_iff] at h
    rw [addToTree, addItem_noop pid newN n h.1, addToTree_noop pid newN rest h.2]

end

/-- C1: with an id that occurs nowhere in the tree at any depth, each of the
four tree operations (`toggleInTree`, `updateInTree`, `deleteFromTree`, and
`addToTree` with that id as parent) returns the input tree itself — they are
total functions that no-op on an unmatched id. -/
theorem claim1_noop_on_missing_id (now tid : String) (u : Updates)
    (newN : Node) (items : List Node) (h : occursList tid items = false) :
    toggleInTree now tid items = items ∧
    updateInTree now tid u items = items ∧
    deleteFromTree tid items = items ∧
    addToTree tid newN items = items :=
  ⟨toggleInTree_noop now tid items h, updateInTree_noop now tid u items h,
    deleteFromTree_noop tid items h, addToTree_noop tid newN items h⟩

/-- Witness for C1 at a concrete two-level tree and the absent id `zz`. -/
theorem claim1_noop_on_missing_id_witness :
    occursList "zz" [exTaskT1, exRootA] = false ∧
    (toggleInTree nowTs "zz" [exTaskT1, exRootA] = [exTaskT1, exRootA] ∧
      updateInTree nowTs "zz" {} [exTaskT1, exRootA] = [exTaskT1, exRootA] ∧
      deleteFromTree "zz" [exTaskT1, exRootA] = [exTaskT1, exRootA] ∧
      addToTree "zz" exLeafC [exTaskT1, exRootA] = [exTaskT1, exRootA]) :=
  ⟨rfl, claim1_noop_on_missing_id nowTs "zz" {} exLeafC [exTaskT1, exRootA] rfl⟩

mutual

theorem toggleItem_inv (now tid : String) (n : Node)
    (h : invNode n = true) : invNode (toggleItem now tid n) = true := by
  cases n with
  | mk i p t d tg ca ic cr ua subs =>
    simp only [invNode, Bool.and_eq_true, beq_iff_eq] at h
    rw [toggleItem]
    split
    · simp only [invNode, Bool.and_eq_true, beq_iff_eq]
      exact ⟨by cases ic <;> simp, h.2⟩
    · split
      · simp only [invNode, Bool.and_eq_true, beq_iff_eq]
        exact ⟨h.1, toggleInTree_inv now tid subs h.2⟩
      · simp only [invNode, Bool.and_eq_true, beq_iff_eq]
        exact h

theorem toggleInTree_inv (now tid : String) (l : List Node)
    (h : invList l = true) : invList (toggleInTree now tid l) = true := by
  cases l with
  | nil => rfl
  | cons n rest =>
    simp only [invList, Bool.and_eq_true] at h
    rw [toggleInTree]
    simp only [invList, Bool.and_eq_true]
    exact ⟨toggleItem_inv now tid n h.1, toggleInTree_inv now tid rest h.2⟩

end

mutual

theorem updateItem_inv (now tid : String) (u : Updates) (n : Node)
    (hu1 : u.isCompleted = none) (hu2 : u.completedAt = none)
    (h : invNode n = true) : invNode (updateItem now tid u n) = true := by
  cases n with
  | mk i p t d tg ca ic cr ua subs =>
    simp only [invNode, Bool.and_eq_true, beq_iff_eq] at h
    rw [updateItem]
    split
    · simp only [invNode, hu1, hu2, Option.getD_none, Bool.and_eq_true, beq_iff_eq]
      exact h
    · split
      · simp only [invNode, Bool.and_eq_true, beq_iff_eq]
        exact ⟨h.1, updateInTree_inv now tid u subs hu1 hu2 h.2⟩
      · simp only [invNode, Bool.and_eq_true, beq_iff_eq]
        exact h

theorem updateInTree_inv (now tid : String) (u : Updates) (l : List Node)
    (hu1 : u.isCompleted = none) (hu2 : u.completedAt = none)
    (h : invList l = true) : invList (updateInTree now tid u l) = true := by
  cases l with
  | nil => rfl
  | cons n rest =>
    simp only [invList, Bool.and_eq_true] at h
    rw [updateInTree]
    simp only [invList, Bool.and_eq_true]
    exact ⟨updateItem_inv now tid u n hu1 hu2 h.1,
      updateInTree_inv now tid u rest hu1 hu2 h.2⟩

end

mutual

theorem deleteItem_inv (tid : String) (n : Node)
    (h : invNode n = true) : invNode (deleteItem tid n) = true := by
  cases n with
  | mk i p t d tg ca ic cr ua subs =>
    simp only [invNode, Bool.and_eq_true, beq_iff_eq] at h
    rw [deleteItem]
    split
    · simp only [invNode, Bool.and_eq_true, beq_iff_eq]
      exact ⟨h.1, deleteFromTree_inv tid subs h.2⟩
    · simp only [invNode, Bool.and_eq_true, beq_iff_eq]
      exact h

theorem deleteFromTree_inv (tid : String) (l : List Node)
    (h : invList l = true) : invList (deleteFromTree tid l) = true := by
  cases l with
  | nil => rfl
  | cons n rest =>
    simp only [invList, Bool.and_eq_true] at h
    rw [deleteFromTree]
    split
    · exact deleteFromTree_inv tid rest h.2
    · simp only [invList, Bool.and_eq_true]
      exact ⟨deleteItem_inv tid n h.1, deleteFromTree_inv tid rest h.2⟩

end

theorem invList_append (xs ys : List Node) :
    invList (xs ++ ys) = (invList xs && invList ys) := by
  induction xs with
  | nil => simp [invList]
  | cons x xs ih => simp [invList, ih, Bool.and_assoc]

mutual

theorem addItem_inv (pid : String) (newN : Node) (n : Node)
    (hn : invNode newN = true)
    (h : invNode n = true) : invNode (addItem pid newN n) = true := by
  cases n with
  | mk i p t d tg ca ic cr ua subs =>
    simp only [invNode, Bool.and_eq_true, beq_iff_eq] at h
    rw [addItem]
    split
    · simp only [invNode, Bool.and_eq_true, beq_iff_eq, invList_append]
      refine ⟨h.1, ?_⟩
      simp [h.2, invList, hn]
    · split
      · simp only [invNode, Bool.and_eq_true, beq_iff_eq]
        exact ⟨h.1, addToTree_inv pid newN subs hn h.2⟩
      · simp only [invNode, Bool.and_eq_true, beq_iff_eq]
        exact h

theorem addToTree_inv (pid : String) (newN : Node) (l : List Node)
    (hn : invNode newN = true)
    (h : invList l = true) : invList (addToTree pid newN l) = true := by
  cases l with
  | nil => rfl
  | cons n rest =>
    simp only [invList, Bool.and_eq_true] at h
    rw [addToTree]
    simp only [invList, Bool.and_eq_true]
    exact ⟨addItem_inv pid newN n hn h.1, addToTree_inv pid newN rest hn h.2⟩

end

/-- C8: on a tree in which every node satisfies `completedAt` defined iff
`isCompleted`, each single operation — a completion toggle, a field update
whose updates object does not carry the `isCompleted`/`completedAt` keys (as
the exposed interface invokes it), a delete, and the insertion of a freshly
created incomplete subtask — yields a tree satisfying the same invariant at
every node. -/
theorem claim8_inv_preserved (now tid pid nid ppid ttl : String)
    (tgs : List String) (u : Updates) (items : List Node)
    (hinv : invList items = true)
    (hu1 : u.isCompleted = none) (hu2 : u.completedAt = none) :
    invList (toggleInTree now tid items) = true ∧
    invList (updateInTree now tid u items) = true ∧
    invList (deleteFromTree tid items) = true ∧
    invList (addToTree pid (freshSubtask nid ppid ttl tgs now) items) = true :=
  ⟨toggleInTree_inv now tid items hinv,
    updateInTree_inv now tid u items hu1 hu2 hinv,
    deleteFromTree_inv tid items hinv,
    addToTree_inv pid (freshSubtask nid ppid ttl tgs now) items rfl hinv⟩

/-- Witness for C8 at a concrete invariant-satisfying tree: toggling,
description-updating and deleting `s1`, and inserting a fresh subtask under
`c`. -/
theorem claim8_inv_preserved_witness :
    invList [exTaskT1, exRootA] = true ∧
    ({ description := some (some "notes") : Updates }.isCompleted = none) ∧
    ({ description := some (some "notes") : Updates }.completedAt = none) ∧
    (invList (toggleInTree nowTs "s1" [exTaskT1, exRootA]) = true ∧
      invList (updateInTree nowTs "s1" { description := some (some "notes") }
        [exTaskT1, exRootA]) = true ∧
      invList (deleteFromTree "s1" [exTaskT1, exRootA]) = true ∧
      invList (addToTree "c" (freshSubtask "new1" "c" "New" [] nowTs)
        [exTaskT1, exRootA]) = true) :=
  ⟨rfl, rfl, rfl,
    claim8_inv_preserved nowTs "s1" "c" "new1" "c" "New" []
      { description := some (some "notes") } [exTaskT1, exRootA] rfl rfl rfl⟩

theorem toggleInTree_frame (now tid : String) (l : List Node) :
    FrameSameL tid l (toggleInTree now tid l) := by
  cases l with
  | nil => simp [toggleInTree, FrameSameL]
  | cons n rest =>
    cases n with
    | mk i p t d tg ca ic cr ua subs =>
      rw [toggleInTree, FrameSameL]
      refine ⟨_, _, rfl, ?_, ?_, toggleInTree_frame now tid rest⟩
      · intro h
        rw [toggleItem, if_neg h]
        split
        · exact ⟨rfl, toggleInTree_frame now tid subs⟩
        · refine ⟨rfl, ?_⟩
          have hs : subs = [] := by
            rename_i hlen
            simpa using List.eq_nil_of_length_eq_zero (by omega)
          simp [hs, FrameSameL, Node.subtasks]
      · intro h
        rw [toggleItem, if_pos h]
        rfl

theorem updateInTree_frame (now tid : String) (u : Updates) (l : List Node) :
    FrameSameL tid l (updateInTree now tid u l) := by
  cases l with
  | nil => simp [updateInTree, FrameSameL]
  | cons n rest =>
    cases n with
    | mk i p t d tg ca ic cr ua subs =>
      rw [updateInTree, FrameSameL]
      refine ⟨_, _, rfl, ?_, ?_, updateInTree_frame now tid u rest⟩
      · intro h
        rw [updateItem, if_neg h]
        split
        · exact ⟨rfl, updateInTree_frame now tid u subs⟩
        · refine ⟨rfl, ?_⟩
          have hs : subs = [] := by
            rename_i hlen
            simpa using List.eq_nil_of_length_eq_zero (by omega)
          simp [hs, FrameSameL, Node.subtasks]
      · intro h
        rw [updateItem, if_pos h]
        rfl

theorem deleteFromTree_frame (tid : String) (l : List Node) :
    FrameDelL tid l (deleteFromTree tid l) := by
  cases l with
  | nil => simp [deleteFromTree, FrameDelL]
  | cons n rest =>
    cases n with
    | mk i p t d tg ca ic cr ua subs =>
      rw [deleteFromTree, FrameDelL]
      by_cases h : i = tid
      · rw [if_pos h]
        have hid : (Node.mk i p t d tg ca ic cr ua subs).id = tid := h
        rw [if_pos hid]
        exact deleteFromTree_frame tid rest
      · rw [if_neg h]
        have hid : ¬(Node.mk i p t d tg ca ic cr ua subs).id = tid := h
        rw [if_neg hid]
        refine ⟨_, _, rfl, ?_, ?_, deleteFromTree_frame tid rest⟩
        · rw [deleteItem]
          split <;> rfl
        · rw [deleteItem]
          split
          · exact deleteFromTree_frame tid subs
          · have hs : subs = [] := by
              rename_i hlen
              simpa using List.eq_nil_of_length_eq_zero (by omega)
            simp [hs, FrameDelL, Node.subtasks]

theorem addToTree_frame (pid : String) (newN : Node) (l : List Node) :
    FrameAddL pid newN l (addToTree pid newN l) := by
  cases l with
  | nil => simp [addToTree, FrameAddL]
  | cons n rest =>
    cases n with
    | mk i p t d tg ca ic cr ua subs =>
      rw [addToTree, FrameAddL]
      by_cases h : i = pid
      · rw [addItem, if_pos h]
        exact ⟨_, _, rfl, rfl, fun _ => rfl, fun hc => absurd h hc,
          addToTree_frame pid newN rest⟩
      · rw [addItem, if_neg h]
        refine ⟨_, _, rfl, ?_, ?_, ?_, addToTree_frame pid newN rest⟩
        · split <;> rfl
        · intro hc
          exact absurd hc h
        · intro _
          split
          · exact addToTree_frame pid newN subs
          · have hs : subs = [] := by
              rename_i hlen
              simpa using List.eq_nil_of_length_eq_zero (by omega)
            simp [hs, FrameAddL, Node.subtasks]

/-- C10: every tree operation preserves the relative order of the root list
and of each surviving node's subtask sequence — `deleteFromTree` only removes
matching entries (with their subtrees), `addToTree` appends the new child at
the end of the matched parent's subtasks — and every node other than the
matched target keeps all of its non-subtask fields (id, parentId, title,
description, tags, completedAt, isCompleted, createdAt, updatedAt) exactly as
in the input tree. -/
theorem claim10_frame (now tid pid : String) (u : Updates) (newN : Node)
    (items : List Node) :
    FrameSameL tid items (toggleInTree now tid items) ∧
    FrameSameL tid items (updateInTree now tid u items) ∧
    FrameDelL tid items (deleteFromTree tid items) ∧
    FrameAddL pid newN items (addToTree pid newN items) :=
  ⟨toggleInTree_frame now tid items, updateInTree_frame now tid u items,
    deleteFromTree_frame tid items, addToTree_frame pid newN items⟩

/-- C3 (evidence of the code bug): toggling the subtask `s1` of `exTaskT1`
through src/App.tsx's `toggleSubtask` flips `isCompleted` and sets
`completedAt`, but leaves the subtask's `updatedAt` at its old value `ts0`,
whereas the tree-engine toggle `toggleInTree` on the same tree refreshes it
to the current timestamp as the claim (and spec section 3) requires. -/
theorem claim3_toggleSubtask_skips_updatedAt :
    toggleSubtask nowTs "t1" "s1" [exTaskT1] =
      [Node.mk "t1" none "Task one" none [] none false ts0 ts0
        [Node.mk "s1" (some "t1") "Subtask one" none [] (some nowTs) true ts0 ts0 []]] ∧
    toggleInTree nowTs "s1" [exTaskT1] =
      [Node.mk "t1" none "Task one" none [] none false ts0 ts0
        [Node.mk "s1" (some "t1") "Subtask one" none [] (some nowTs) true ts0 nowTs []]] :=
  ⟨rfl, rfl⟩

theorem sanitizeList_rel : ∀ raws : List RawNode, SanRelL raws (sanitizeList raws)
  | [] => by simp [sanitizeList, SanRelL]
  | (.mk i p t d tg ca ic cr ua none) :: as => by
    rw [sanitizeList, SanRelL]
    exact ⟨_, _, rfl, rfl, rfl, sanitizeList_rel as⟩
  | (.mk i p t d tg ca ic cr ua (some l)) :: as => by
    rw [sanitizeList, SanRelL]
    exact ⟨_, _, rfl, rfl, sanitizeList_rel l, sanitizeList_rel as⟩

/-- C5 (counterexample): the src/App.tsx initializer
(`saved ? JSON.parse(saved) : []`) propagates the parse failure of an
unparsable blob instead of yielding the empty tree, and returns a parsed
structure unchanged, leaving `rawLeaf`'s missing `subtasks` field missing. -/
theorem claim5_counterexample :
    appLoad (some (Except.error ())) = Except.error () ∧
    appLoad (some (Except.ok [rawLeaf])) = Except.ok [rawLeaf] ∧
    rawLeaf.subtasks = none :=
  ⟨rfl, rfl, rfl⟩

/-- C5 amended: the claim holds of the src/unnamed/part_001 initializer —
a missing store and an unparsable blob both yield the empty tree, and a
parsed structure is sanitized recursively, every node keeping its fields and
every missing `subtasks` field becoming the empty sequence — while the
src/App.tsx initializer neither catches the parse failure nor sanitizes. -/
theorem claim5_part001_load_sanitizes :
    part001Load none = [] ∧
    (∀ e : Unit, part001Load (some (Except.error e)) = []) ∧
    (∀ raws : List RawNode, SanRelL raws (part001Load (some (Except.ok raws)))) :=
  ⟨rfl, fun _ => rfl, fun raws => sanitizeList_rel raws⟩

/-- Membership reading of `List.contains` on strings. -/
theorem list_contains_iff (l : List String) (a : String) :
    l.contains a = true ↔ a ∈ l :=
  List.elem_iff

mutual

theorem hasTagRecursive_iff (sel : List String) (n : Node) :
    hasTagRecursive sel n = true ↔ ∃ t ∈ sel, t ∈ subtreeTags n := by
  cases n with
  | mk i p t d tg ca ic cr ua subs =>
    rw [hasTagRecursive, subtreeTags]
    simp only [Bool.or_eq_true, List.any_eq_true, List.mem_append,
      list_contains_iff]
    constructor
    · rintro (⟨x, hx, hxt⟩ | hany)
      · exact ⟨x, hx, Or.inl hxt⟩
      · obtain ⟨x, hx, hmem⟩ := (hasTagAny_iff sel subs).mp hany
        exact ⟨x, hx, Or.inr hmem⟩
    · rintro ⟨x, hx, hxt | hsub⟩
      · exact Or.inl ⟨x, hx, hxt⟩
      · exact Or.inr ((hasTagAny_iff sel subs).mpr ⟨x, hx, hsub⟩)

theorem hasTagAny_iff (sel : List String) (l : List Node) :
    hasTagAny sel l = true ↔ ∃ t ∈ sel, t ∈ subtreeTagsList l := by
  cases l with
  | nil => simp [hasTagAny, subtreeTagsList]
  | cons n rest =>
    rw [hasTagAny, subtreeTagsList]
    simp only [Bool.or_eq_true, List.mem_append]
    constructor
    · rintro (hn | hr)
      · obtain ⟨x, hx, hmem⟩ := (hasTagRecursive_iff sel n).mp hn
        exact ⟨x, hx, Or.inl hmem⟩
      · obtain ⟨x, hx, hmem⟩ := (hasTagAny_iff sel rest).mp hr
        exact ⟨x, hx, Or.inr hmem⟩
    · rintro ⟨x, hx, hn | hr⟩
      · exact Or.inl ((hasTagRecursive_iff sel n).mpr ⟨x, hx, hn⟩)
      · exact Or.inr ((hasTagAny_iff sel rest).mpr ⟨x, hx, hr⟩)

end

/-- C4 (counterexample): with the selected tag `work` carried only by the
depth-two descendant `exLeafC`, the root task `exRootA` fails the
src/App.tsx tag filter even though the tag appears in its subtree, so the
any-depth biconditional is false of that filter. -/
theorem claim4_counterexample :
    appHasTag ["work"] exRootA = false ∧
    "work" ∈ subtreeTags exRootA :=
  ⟨rfl, by decide⟩

/-- C4 amended: the any-depth biconditional holds of the recursive
`hasTagRecursive` filter of src/unnamed/part_001; the src/App.tsx filter
instead matches exactly when a selected tag appears in the root task's own
tags or in a direct subtask's tags (depth at most one). -/
theorem claim4_tag_filter (sel : List String) (n : Node) (hsel : sel ≠ []) :
    (hasTagRecursive sel n = true ↔ ∃ t ∈ sel, t ∈ subtreeTags n) ∧
    (appHasTag sel n = true ↔
      ∃ t ∈ sel, (t ∈ n.tags ∨ ∃ st ∈ n.subtasks, t ∈ st.tags)) := by
  refine ⟨hasTagRecursive_iff sel n, ?_⟩
  rw [appHasTag]
  simp only [List.any_eq_true, list_contains_iff, List.mem_append,
    List.mem_flatten, List.mem_map]
  constructor
  · rintro ⟨x, hx, hxt | ⟨l, ⟨st, hst, rfl⟩, hmem⟩⟩
    · exact ⟨x, hx, Or.inl hxt⟩
    · exact ⟨x, hx, Or.inr ⟨st, hst, hmem⟩⟩
  · rintro ⟨x, hx, hxt | ⟨st, hst, hmem⟩⟩
    · exact ⟨x, hx, Or.inl hxt⟩
    · exact ⟨x, hx, Or.inr ⟨st.tags, ⟨st, hst, rfl⟩, hmem⟩⟩

/-- Witness for C4 at the concrete selection `work` and the tree `exRootA`. -/
theorem claim4_tag_filter_witness :
    (["work"] : List String) ≠ [] ∧
    ((hasTagRecursive ["work"] exRootA = true ↔
        ∃ t ∈ ["work"], t ∈ subtreeTags exRootA) ∧
      (appHasTag ["work"] exRootA = true ↔
        ∃ t ∈ ["work"], (t ∈ exRootA.tags ∨
          ∃ st ∈ exRootA.subtasks, t ∈ st.tags))) :=
  ⟨by decide, claim4_tag_filter ["work"] exRootA (by decide)⟩

/-- C6: the sort comparator of `sortedTasks` coincides with the spec's
description — incomplete before completed; among completed, descending by
`completedAt` with a missing value treated as the empty string (earliest,
hence last); among incomplete, descending by `createdAt`. -/
theorem claim6_sort_comparator (a b : Node) :
    sortComparator a b = sortComparatorSpec a b := by
  cases a with
  | mk ia pa ta da tga caa ica cra uaa sa =>
    cases b with
    | mk ib pb tb db tgb cab icb crb uab sb =>
      cases ica <;> cases icb <;>
        simp [sortComparator, sortComparatorSpec, Node.isCompleted,
          Node.completedAt, Node.createdAt]

theorem specScan_fst : ∀ l : List Char, (specScan l).1 = stripTags l
  | [] => by rw [specScan, stripTags]
  | c :: rest => by
    rw [specScan, stripTags]
    split_ifs with h
    · exact specScan_fst (rest.dropWhile isTagChar)
    · rw [specScan_fst rest]
termination_by l => l.length
decreasing_by
  · simp only [List.length_cons]
    exact Nat.lt_succ_of_le (List.dropWhile_sublist _).length_le
  · simp

theorem specScan_snd : ∀ l : List Char,
    (specScan l).2 = (tagMatches l).map (fun m => m.drop 1)
  | [] => by rw [specScan, tagMatches]; rfl
  | c :: rest => by
    rw [specScan, tagMatches]
    split_ifs with h
    · simp only [List.map_cons, List.drop_succ_cons, List.drop_zero]
      rw [specScan_snd (rest.dropWhile isTagChar)]
    · exact specScan_snd rest
termination_by l => l.length
decreasing_by
  · simp only [List.length_cons]
    exact Nat.lt_succ_of_le (List.dropWhile_sublist _).length_le
  · simp

/-- C2: for every input string, `parseTaskInput` returns exactly the
spec-described result — the tags are all the `#`-plus-word-or-hyphen-run
substrings scanned left to right, leading `#` stripped, duplicates kept in
order; the title is the input with those substrings removed and trimmed,
falling back to the original untrimmed input when that is empty. -/
theorem claim2_parseTaskInput (input : String) :
    parseTaskInput input = parseTaskInputSpec input := by
  simp only [parseTaskInput, parseTaskInputSpec, specScan_fst, specScan_snd,
    List.map_map]
  rfl

/-- C9 (counterexample): with known tags `{surge, urgent, urgently}` and the
typed token `#ur`, the tag `surge` does contain the substring `ur`
(s-u-r-g-e), so it is suggested, and the suggestion list is not
`[urgent, urgently]`. -/
theorem claim9_counterexample :
    suggestTags "#ur".toList 3 ["surge", "urgent", "urgently"] ≠
      ["urgent", "urgently"] ∧
    "surge" ∈ suggestTags "#ur".toList 3 ["surge", "urgent", "urgently"] := by
  decide

/-- C9 amended: with known tags `{surge, urgent, urgently}` and typed token
`#ur`, the suggestions are exactly `[urgent, urgently, surge]` — the two
starts-with matches first in alphabetical order, then `surge`, which contains
`ur` without starting with it. -/
theorem claim9_suggestions :
    suggestTags "#ur".toList 3 ["surge", "urgent", "urgently"] =
      ["urgent", "urgently", "surge"] := by
  decide

theorem ltCharList_asymm : ∀ {a b : List Char},
    ltCharList a b = true → ltCharList b a = false
  | _, [], h => by simp [ltCharList] at h
  | [], _ :: _, _ => by rw [ltCharList]
  | a :: as, b :: bs, h => by
    rw [ltCharList] at h
    rw [ltCharList]
    by_cases h1 : a < b
    · rw [if_neg (lt_asymm h1), if_pos h1]
    · by_cases h2 : b < a
      · rw [if_neg h1, if_pos h2] at h
        exact absurd h (by simp)
      · rw [if_neg h1, if_neg h2] at h
        rw [if_neg h2, if_neg h1]
        exact ltCharList_asymm h

theorem ltCharList_eq_of_not : ∀ {a b : List Char},
    ltCharList a b = false → ltCharList b a = false → a = b
  | [], [], _, _ => rfl
  | [], _ :: _, h, _ => by rw [ltCharList] at h; exact absurd h (by simp)
  | _ :: _, [], _, h => by rw [ltCharList] at h; exact absurd h (by simp)
  | a :: as, b :: bs, h, h' => by
    rw [ltCharList] at h h'
    by_cases h1 : a < b
    · rw [if_pos h1] at h
      exact absurd h (by simp)
    · by_cases h2 : b < a
      · rw [if_pos h2] at h'
        exact absurd h' (by simp)
      · rw [if_neg h1, if_neg h2] at h
        rw [if_neg h2, if_neg h1] at h'
        have hab : a = b := le_antisymm (not_lt.mp h2) (not_lt.mp h1)
        rw [hab, ltCharList_eq_of_not h h']

theorem ltCharList_trans : ∀ {a b c : List Char},
    ltCharList a b = true → ltCharList b c = true → ltCharList a c = true
  | _, _, [], _, h2 => by
    rw [ltCharList] at h2
    exact absurd h2 (by simp)
  | [], _, _ :: _, _, _ => by rw [ltCharList]
  | a :: as, [], c :: cs, h1, _ => by
    rw [ltCharList] at h1
    exact absurd h1 (by simp)
  | a :: as, b :: bs, c :: cs, h1, h2 => by
    rw [ltCharList] at h1 h2
    rw [ltCharList]
    by_cases hab : a < b
    · by_cases hbc : b < c
      · rw [if_pos (lt_trans hab hbc)]
      · by_cases hcb : c < b
        · rw [if_neg hbc, if_pos hcb] at h2
          exact absurd h2 (by simp)
        · have hbceq : b = c := le_antisymm (not_lt.mp hcb) (not_lt.mp hbc)
          rw [← hbceq, if_pos hab]
    · by_cases hba : b < a
      · rw [if_neg hab, if_pos hba] at h1
        exact absurd h1 (by simp)
      · have habeq : a = b := le_antisymm (not_lt.mp hba) (not_lt.mp hab)
        rw [if_neg hab, if_neg hba] at h1
        by_cases hbc : b < c
        · rw [habeq, if_pos hbc]
        · by_cases hcb : c < b
          · rw [if_neg hbc, if_pos hcb] at h2
            exact absurd h2 (by simp)
          · rw [if_neg hbc, if_neg hcb] at h2
            have hbceq : b = c := le_antisymm (not_lt.mp hcb) (not_lt.mp hbc)
            rw [habeq, hbceq]
            rw [if_neg (lt_irrefl c), if_neg (lt_irrefl c)]
            exact ltCharList_trans h1 h2

theorem strCmp_le_total (a b : String) : strCmp a b ≤ 0 ∨ strCmp b a ≤ 0 := by
  rw [strCmp, strCmp]
  by_cases h1 : ltCharList a.data b.data = true
  · left
    rw [if_pos h1]
    omega
  · by_cases h2 : ltCharList b.data a.data = true
    · right
      rw [if_pos h2]
      omega
    · left
      rw [if_neg h1, if_neg h2]

theorem strCmp_le_antisymm (a b : String) (h1 : strCmp a b ≤ 0)
    (h2 : strCmp b a ≤ 0) : a = b := by
  rw [strCmp] at h1 h2
  by_cases g1 : ltCharList a.data b.data = true
  · have g1' : ¬ ltCharList b.data a.data = true := by
      simp [ltCharList_asymm g1]
    rw [if_neg g1', if_pos g1] at h2
    omega
  · by_cases g2 : ltCharList b.data a.data = true
    · rw [if_neg g1, if_pos g2] at h1
      omega
    · have e : a.data = b.data :=
        ltCharList_eq_of_not (Bool.not_eq_true _ ▸ g1 : ltCharList a.data b.data = false)
          (Bool.not_eq_true _ ▸ g2 : ltCharList b.data a.data = false)
      cases a with
      | mk da =>
        cases b with
        | mk db => exact congrArg String.mk e

theorem strCmp_le_trans (a b c : String) (h1 : strCmp a b ≤ 0)
    (h2 : strCmp b c ≤ 0) : strCmp a c ≤ 0 := by
  rw [strCmp] at h1 h2
  rw [strCmp]
  by_cases g1 : ltCharList a.data b.data = true
  · by_cases g2 : ltCharList b.data c.data = true
    · rw [if_pos (ltCharList_trans g1 g2)]
      omega
    · by_cases g3 : ltCharList c.data b.data = true
      · rw [if_neg g2, if_pos g3] at h2
        omega
      · have e : b.data = c.data :=
          ltCharList_eq_of_not (Bool.not_eq_true _ ▸ g2)
            (Bool.not_eq_true _ ▸ g3)
        rw [← e, if_pos g1]
        omega
  · by_cases g4 : ltCharList b.data a.data = true
    · rw [if_neg g1, if_pos g4] at h1
      omega
    · have e : a.data = b.data :=
        ltCharList_eq_of_not (Bool.not_eq_true _ ▸ g1)
          (Bool.not_eq_true _ ▸ g4)
      rw [e]
      by_cases g2 : ltCharList b.data c.data = true
      · rw [if_pos g2]
        omega
      · by_cases g3 : ltCharList c.data b.data = true
        · rw [if_neg g2, if_pos g3] at h2
          omega
        · rw [if_neg g2, if_neg g3]

theorem localeCmp_le_total (a b : String) : localeCmp a b ≤ 0 ∨ localeCmp b a ≤ 0 := by
  rw [localeCmp, localeCmp]
  by_cases h1 : ltCharList (lowerStr a).data (lowerStr b).data = true
  · left
    rw [if_pos h1]
    omega
  · by_cases h2 : ltCharList (lowerStr b).data (lowerStr a).data = true
    · right
      rw [if_pos h2]
      omega
    · rw [if_neg h1, if_neg h2, if_neg h2, if_neg h1]
      exact strCmp_le_total a b

theorem localeCmp_le_antisymm (a b : String) (h1 : localeCmp a b ≤ 0)
    (h2 : localeCmp b a ≤ 0) : a = b := by
  rw [localeCmp] at h1 h2
  by_cases g1 : ltCharList (lowerStr a).data (lowerStr b).data = true
  · have g1' : ¬ ltCharList (lowerStr b).data (lowerStr a).data = true := by
      simp [ltCharList_asymm g1]
    rw [if_neg g1', if_pos g1] at h2
    omega
  · by_cases g2 : ltCharList (lowerStr b).data (lowerStr a).data = true
    · rw [if_neg g1, if_pos g2] at h1
      omega
    · rw [if_neg g1, if_neg g2] at h1
      rw [if_neg g2, if_neg g1] at h2
      exact strCmp_le_antisymm a b h1 h2

theorem localeCmp_le_trans (a b c : String) (h1 : localeCmp a b ≤ 0)
    (h2 : localeCmp b c ≤ 0) : localeCmp a c ≤ 0 := by
  rw [localeCmp] at h1 h2
  rw [localeCmp]
  by_cases g1 : ltCharList (lowerStr a).data (lowerStr b).data = true
  · by_cases g2 : ltCharList (lowerStr b).data (lowerStr c).data = true
    · rw [if_pos (ltCharList_trans g1 g2)]
      omega
    · by_cases g3 : ltCharList (lowerStr c).data (lowerStr b).data = true
      · rw [if_neg g2, if_pos g3] at h2
        omega
      · have e : (lowerStr b).data = (lowerStr c).data :=
          ltCharList_eq_of_not (Bool.not_eq_true _ ▸ g2)
            (Bool.not_eq_true _ ▸ g3)
        rw [← e, if_pos g1]
        omega
  · by_cases g4 : ltCharList (lowerStr b).data (lowerStr a).data = true
    · rw [if_neg g1, if_pos g4] at h1
      omega
    · have e : (lowerStr a).data = (lowerStr b).data :=
        ltCharList_eq_of_not (Bool.not_eq_true _ ▸ g1)
          (Bool.not_eq_true _ ▸ g4)
      rw [if_neg g1, if_neg g4] at h1
      rw [e]
      by_cases g2 : ltCharList (lowerStr b).data (lowerStr c).data = true
      · rw [if_pos g2]
        omega
      · by_cases g3 : ltCharList (lowerStr c).data (lowerStr b).data = true
        · rw [if_neg g2, if_pos g3] at h2
          omega
        · rw [if_neg g2, if_neg g3] at h2
          rw [if_neg g2, if_neg g3]
          exact strCmp_le_trans a b c h1 h2

theorem tagCmp_def (s : List Char) (a b : String) :
    tagCmp s a b =
      if s.isPrefixOf (lowerStr a).data && !(s.isPrefixOf (lowerStr b).data) then -1
      else if !(s.isPrefixOf (lowerStr a).data) && s.isPrefixOf (lowerStr b).data then 1
      else localeCmp a b :=
  rfl

theorem tagLE_total (s : List Char) (a b : String) : tagLE s a b ∨ tagLE s b a := by
  rw [tagLE, tagLE, tagCmp_def, tagCmp_def]
  cases hpa : s.isPrefixOf (lowerStr a).data <;>
    cases hpb : s.isPrefixOf (lowerStr b).data <;>
    simp [hpa, hpb]
  all_goals exact localeCmp_le_total a b

theorem tagLE_trans (s : List Char) (a b c : String) (h1 : tagLE s a b)
    (h2 : tagLE s b c) : tagLE s a c := by
  rw [tagLE, tagCmp_def] at h1 h2 ⊢
  cases hpa : s.isPrefixOf (lowerStr a).data <;>
    cases hpb : s.isPrefixOf (lowerStr b).data <;>
    cases hpc : s.isPrefixOf (lowerStr c).data <;>
    simp [hpa, hpb, hpc] at h1 h2 ⊢
  all_goals exact localeCmp_le_trans a b c h1 h2

theorem tagLE_antisymm (s : List Char) (a b : String) (h1 : tagLE s a b)
    (h2 : tagLE s b a) : a = b := by
  rw [tagLE, tagCmp_def] at h1 h2
  cases hpa : s.isPrefixOf (lowerStr a).data <;>
    cases hpb : s.isPrefixOf (lowerStr b).data <;>
    simp [hpa, hpb] at h1 h2
  all_goals exact localeCmp_le_antisymm a b h1 h2

theorem tagLE_of_alpha_same (s : List Char) (a b : String)
    (hp : s.isPrefixOf (lowerStr a).data = s.isPrefixOf (lowerStr b).data)
    (h : alphaLE a b) : tagLE s a b := by
  rw [tagLE, tagCmp_def]
  cases hqa : s.isPrefixOf (lowerStr a).data <;>
    cases hqb : s.isPrefixOf (lowerStr b).data <;>
    simp [hqa, hqb] <;> first
      | exact h
      | (rw [hqa, hqb] at hp; exact absurd hp (by simp))

theorem tagLE_cross (s : List Char) (a b : String)
    (hpa : s.isPrefixOf (lowerStr a).data = true)
    (hpb : s.isPrefixOf (lowerStr b).data = false) : tagLE s a b := by
  rw [tagLE, tagCmp_def]
  simp [hpa, hpb]

theorem insertionSort_tagLE_split (s : List Char) (ms : List String) :
    List.insertionSort (tagLE s) ms =
      List.insertionSort alphaLE
          (ms.filter (fun t => s.isPrefixOf (lowerStr t).data)) ++
        List.insertionSort alphaLE
          (ms.filter (fun t => !(s.isPrefixOf (lowerStr t).data))) := by
  haveI htot : IsTotal String (tagLE s) := ⟨tagLE_total s⟩
  haveI htr : IsTrans String (tagLE s) := ⟨tagLE_trans s⟩
  haveI hasym : IsAntisymm String (tagLE s) := ⟨tagLE_antisymm s⟩
  haveI : IsTotal String alphaLE := ⟨localeCmp_le_total⟩
  haveI : IsTrans String alphaLE := ⟨localeCmp_le_trans⟩
  refine List.eq_of_perm_of_sorted (r := tagLE s) ?_ ?_ ?_
  · refine ((List.perm_insertionSort _ ms).trans
      (List.filter_append_perm (fun t => s.isPrefixOf (lowerStr t).data) ms).symm).trans
      (List.Perm.append ?_ ?_)
    · exact (List.perm_insertionSort _ _).symm
    · exact (List.perm_insertionSort _ _).symm
  · exact List.sorted_insertionSort _ ms
  · rw [List.Sorted] at *
    refine List.pairwise_append.mpr ⟨?_, ?_, ?_⟩
    · refine (List.sorted_insertionSort alphaLE _).imp_of_mem ?_
      intro a b ha hb hab
      rw [List.mem_insertionSort, List.mem_filter] at ha hb
      exact tagLE_of_alpha_same s a b (ha.2.trans hb.2.symm) hab
    · refine (List.sorted_insertionSort alphaLE _).imp_of_mem ?_
      intro a b ha hb hab
      rw [List.mem_insertionSort, List.mem_filter] at ha hb
      have ha' : s.isPrefixOf (lowerStr a).data = false := by
        simpa using ha.2
      have hb' : s.isPrefixOf (lowerStr b).data = false := by
        simpa using hb.2
      exact tagLE_of_alpha_same s a b (ha'.trans hb'.symm) hab
    · intro a ha b hb
      rw [List.mem_insertionSort, List.mem_filter] at ha hb
      have hb' : s.isPrefixOf (lowerStr b).data = false := by
        simpa using hb.2
      exact tagLE_cross s a b ha.2 hb'

theorem lastSpaceLE_le (val : List Char) : ∀ n i, lastSpaceLE val n = some i → i ≤ n
  | 0, i, h => by
    rw [lastSpaceLE] at h
    split_ifs at h with h1
    · cases h
      exact le_refl 0
  | n + 1, i, h => by
    rw [lastSpaceLE] at h
    split_ifs at h with h1
    · cases h
      exact le_refl (n + 1)
    · exact le_trans (lastSpaceLE_le val n i h) (Nat.le_succ n)

theorem lastSpaceLE_eq (val : List Char) : ∀ n : Nat,
    lastSpaceLE val n =
      ((List.range (n + 1)).filter (fun i => val.get? i = some ' ')).getLast?
  | 0 => by
    rw [lastSpaceLE, List.range_succ, List.range_zero, List.nil_append]
    by_cases h : val.get? 0 = some ' '
    · rw [if_pos h, List.filter_cons, List.filter_nil,
        if_pos (decide_eq_true h)]
      rfl
    · rw [if_neg h, List.filter_cons, List.filter_nil,
        if_neg (by simpa using h)]
      rfl
  | n + 1 => by
    rw [lastSpaceLE, List.range_succ, List.filter_append]
    by_cases h : val.get? (n + 1) = some ' '
    · rw [if_pos h]
      rw [List.filter_cons, List.filter_nil, if_pos (decide_eq_true h),
        List.getLast?_concat]
    · rw [if_neg h]
      rw [List.filter_cons, List.filter_nil, if_neg (by simpa using h),
        List.append_nil]
      exact lastSpaceLE_eq val n

theorem startOfWord_eq (val : List Char) (cursor : Nat) (h : 1 ≤ cursor) :
    startOfWord val cursor = specStart val cursor := by
  rw [startOfWord, specStart, lastSpaceLE_eq, Nat.sub_add_cancel h]

theorem startOfWord_le (val : List Char) (cursor : Nat) (h : 1 ≤ cursor) :
    startOfWord val cursor ≤ cursor := by
  rw [startOfWord]
  cases hs : lastSpaceLE val (cursor - 1) with
  | none => exact Nat.zero_le cursor
  | some i =>
    have hle := lastSpaceLE_le val (cursor - 1) i hs
    show i + 1 ≤ cursor
    omega

theorem currentWordJS_eq (val : List Char) (cursor : Nat) (h : 1 ≤ cursor) :
    currentWordJS val cursor = specWord val cursor := by
  rw [currentWordJS, jsSubstring, if_pos (startOfWord_le val cursor h),
    startOfWord_eq val cursor h, specWord]

theorem currentWordJS_zero_head (val : List Char) :
    (currentWordJS val 0).head? ≠ some '#' := by
  rw [currentWordJS, startOfWord]
  rw [show (0 : Nat) - 1 = 0 from rfl, lastSpaceLE]
  by_cases h : val.get? 0 = some ' '
  · rw [if_pos h]
    cases val with
    | nil => simp at h
    | cons a tl =>
      have ha : a = ' ' := by
        rw [List.get?] at h
        exact Option.some.inj h
      subst ha
      show (jsSubstring (' ' :: tl) 1 0).head? ≠ some '#'
      rw [jsSubstring, if_neg (by omega)]
      simp
  · rw [if_neg h]
    rw [jsSubstring, if_pos (le_refl 0)]
    simp

/-- C7: the suggestion computation of `handleInputChange` agrees with the
spec's description of the autocomplete contract for every text, cursor
position and known-tag list: an in-progress `#`-token under the cursor
yields the known tags containing the lowercased body, starts-with matches
first, each group alphabetical, truncated to five; anything else yields no
suggestions. -/
theorem claim7_autocomplete (val : List Char) (cursor : Nat)
    (knownTags : List String) :
    suggestTags val cursor knownTags = suggestSpec val cursor knownTags := by
  by_cases hc : cursor = 0
  · subst hc
    have hjs := currentWordJS_zero_head val
    have hsp : specWord val 0 = [] := by
      rw [specWord]
      simp
    simp only [suggestTags, suggestSpec]
    rw [if_neg (by simp [hjs]), if_neg (by simp [hsp])]
  · have h1 : 1 ≤ cursor := Nat.one_le_iff_ne_zero.mpr hc
    simp only [suggestTags, suggestSpec, currentWordJS_eq val cursor h1]
    split
    · next hg =>
      generalize ((specWord val cursor).drop 1).map Char.toLower = s
      have hpre : knownTags.filter
            (fun t => containsSub (lowerStr t).data s &&
              s.isPrefixOf (lowerStr t).data) =
          (knownTags.filter (fun t => containsSub (lowerStr t).data s)).filter
            (fun t => s.isPrefixOf (lowerStr t).data) := by
        rw [List.filter_filter]
        exact List.filter_congr fun a _ => Bool.and_comm _ _
      have hrest : knownTags.filter
            (fun t => containsSub (lowerStr t).data s &&
              !(s.isPrefixOf (lowerStr t).data)) =
          (knownTags.filter (fun t => containsSub (lowerStr t).data s)).filter
            (fun t => !(s.isPrefixOf (lowerStr t).data)) := by
        rw [List.filter_filter]
        exact List.filter_congr fun a _ => Bool.and_comm _ _
      rw [hpre, hrest]
      split
      · next hms =>
        rw [insertionSort_tagLE_split s
          (knownTags.filter (fun t => containsSub (lowerStr t).data s))]
      · next hms =>
        have hms0 : knownTags.filter
            (fun t => containsSub (lowerStr t).data s) = [] := by
          have : (knownTags.filter
              (fun t => containsSub (lowerStr t).data s)).length = 0 := by
            omega
          exact List.eq_nil_of_length_eq_zero this
        rw [hms0]
        simp [List.insertionSort]
    · next hg =>
      rfl
